import Mathlib

/-!
# Verification of ReferentialGym's dataflow engine and distractor selector

Shallow embedding of the core of the repository:
* `DualLabeledDataset` (`ReferentialGym/datasets/dual_labeled_dataset.py`):
  class-partition construction, grouped target+distractor sampling, one-hot
  latent derivation;
* `ReferentialGame.train` (`ReferentialGym/referential_game.py`): the
  communication-round / pipeline-serving order, the curriculum update on the
  distractor count, and the checkpoint save/load control flow.

Class keys, dataset indices and labels are modelled as naturals; the Python
insertion-ordered dict mapping a class key to its index list is modelled as an
association list; the shared pseudo-random source is an oracle `rng : ℕ → ℕ`
(the draw picks element `rng k % card` of the current working set).
-/

namespace RG

/-! ## Class partition maps (`DualLabeledDataset.__init__`, lines 16-43)

`addToClassMap m cl idx` models `if cl not in classes: classes[cl] = []`
followed by `classes[cl].append(idx)` on an insertion-ordered dict. -/

def addToClassMap (m : List (ℕ × List ℕ)) (cl idx : ℕ) : List (ℕ × List ℕ) :=
  match m with
  | [] => [(cl, [idx])]
  | (c, l) :: rest =>
      if c = cl then (c, l ++ [idx]) :: rest
      else (c, l) :: addToClassMap rest cl idx

/-- `buildClasses labels offset` models the loop
`for idx in range(len(dataset)): cl = getclass(idx); classes[cl].append(offset+idx)`. -/
def buildClasses (labels : List ℕ) (offset : ℕ) : List (ℕ × List ℕ) :=
  (labels.enum).foldl (fun m p => addToClassMap m p.2 (offset + p.1)) []

/-- The keys of a class map (dict key list, in insertion order). -/
def keysOf (m : List (ℕ × List ℕ)) : List ℕ := m.map Prod.fst

/-- Dict lookup `classes[cl]`; the Python code only looks up present keys,
absent keys are modelled by the empty list. -/
def lookupClass (m : List (ℕ × List ℕ)) (cl : ℕ) : List ℕ :=
  match m with
  | [] => []
  | (c, l) :: rest => if c = cl then l else lookupClass rest cl

/-- A `DualLabeledDataset` is built from the label sequences of the two
underlying datasets: `trainLabels[i]` is `train_dataset.getclass(i)`. -/
structure DualData where
  trainLabels : List ℕ
  testLabels : List ℕ

/-- `self.train_classes` (lines 16-23). -/
def trainClasses (d : DualData) : List (ℕ × List ℕ) :=
  buildClasses d.trainLabels 0

/-- `self.test_classes` before the merge (lines 25-33): test indices are
offset by `len(train_dataset)` into the global index space. -/
def testClassesRaw (d : DualData) : List (ℕ × List ℕ) :=
  buildClasses d.testLabels d.trainLabels.length

/-- Lines 37-39: `if cl not in self.test_classes: self.test_classes[cl] = []`. -/
def ensureKey (m : List (ℕ × List ℕ)) (cl : ℕ) : List (ℕ × List ℕ) :=
  if cl ∈ keysOf m then m else m ++ [(cl, [])]

/-- The body of the loop at lines 37-41 for one train-class entry `p`:
create the key when absent, then append every train index of the class. -/
def mergeStep (t : List (ℕ × List ℕ)) (p : ℕ × List ℕ) : List (ℕ × List ℕ) :=
  p.2.foldl (fun t i => addToClassMap t p.1 i) (ensureKey t p.1)

/-- Lines 35-41: every train class's indices are appended into the test map
(creating the key when absent). -/
def testClasses (d : DualData) : List (ℕ × List ℕ) :=
  (trainClasses d).foldl mergeStep (testClassesRaw d)

/-- `self.nbr_classes = len(self.test_classes.keys())` (line 43). -/
def nbrClasses (d : DualData) : ℕ := (testClasses d).length

/-- The dataset mode (`self.mode`); the source's `'test' in self.mode`
substring test selects between the two maps. -/
inductive Mode where
  | train
  | test
deriving DecidableEq, Repr

/-- `getNbrClasses` (lines 54-58). -/
def getNbrClasses (d : DualData) (mode : Mode) : ℕ :=
  match mode with
  | .test => nbrClasses d
  | .train => (trainClasses d).length

/-! ## Index selection inside `sample` (lines 88-121)

The working set `set_indices` is the union of the candidate classes' index
lists minus the exclusion list; the target is removed (the source catches the
`KeyError` when it is absent, prints it, drops into a debugger and then
*continues*); if the remainder is smaller than the distractor count the
candidate set is widened to all classes and the construction retried. -/

/-- A Python `set` of naturals, modelled as a strictly sorted list:
insertion keeping order and uniqueness. -/
def sinsert (x : ℕ) : List ℕ → List ℕ
  | [] => [x]
  | y :: ys =>
      if x < y then x :: y :: ys
      else if x = y then y :: ys
      else y :: sinsert x ys

/-- `set.union`: insert every element of `t` into `s`. -/
def sunion (s t : List ℕ) : List ℕ :=
  t.foldl (fun a x => sinsert x a) s

/-- `set_indices = ⋃ class_idx ∈ from_class, classes[class_idx]` minus
`excepts` (lines 94-99, `set.union` then `set.difference`). -/
def workingSet (classes : List (ℕ × List ℕ)) (from_class : List ℕ)
    (excepts : List ℕ) : List ℕ :=
  (from_class.foldl (fun s cl => sunion s (lookupClass classes cl)) []).filter
    (fun x => !excepts.contains x)

/-- One draw loop (lines 118-121): `nbr_samples` times, pick a random member
of `set_indices` and remove it. The pseudo-random source is the oracle `rng`;
draw `k` takes element `rng k % len` of the set (Python's `list(set)` order is
unspecified; every element is reachable by some oracle).
`random.choice` on an empty list raises, modelled by `none`. -/
def drawIndices (s : List ℕ) (n : ℕ) (rng : ℕ → ℕ) (k : ℕ) :
    Option (List ℕ) :=
  match n with
  | 0 => some []
  | m + 1 =>
      if 0 < s.length then
        let chosen := s.getD (rng k % s.length) 0
        (drawIndices (s.erase chosen) m rng (k + 1)).map
          (fun rest => chosen :: rest)
      else none

/-- Result of the index-selection phase of `sample`. `warned` records that the
`not_enough_elements` fallback fired (lines 111-114); `removalCaught` records
that the `set_indices.remove(idx)` of the final pass raised and the exception
was caught (lines 103-108), after which execution continues. -/
structure IndexSelection where
  indices : List ℕ
  warned : Bool
  removalCaught : Bool
deriving DecidableEq, Repr

/-- The `while test:` loop of lines 88-121 followed by the draw loop.
The first pass uses the caller's `from_class` (or all keys when `None`); if
the remaining working set is smaller than `nbr_samples`, the loop retries
with `from_class = list(classes.keys())`. A second failing pass would
recompute the identical working set forever, so divergence is modelled by
`none`. The target `idx` is the first element of `indices` (line 109). -/
def sampleIndices (classes : List (ℕ × List ℕ)) (idx : ℕ)
    (from_class : Option (List ℕ)) (excepts : List ℕ) (nbr_samples : ℕ)
    (rng : ℕ → ℕ) : Option IndexSelection :=
  let allKeys := keysOf classes
  let pass := fun (fc : List ℕ) =>
    let s := workingSet classes fc excepts
    (s.erase idx, !s.contains idx)
  let p1 := pass (from_class.getD allKeys)
  if nbr_samples ≤ p1.1.length then
    (drawIndices p1.1 nbr_samples rng 0).map
      (fun ds => ⟨idx :: ds, false, p1.2⟩)
  else
    let p2 := pass allKeys
    if nbr_samples ≤ p2.1.length then
      (drawIndices p2.1 nbr_samples rng 0).map
        (fun ds => ⟨idx :: ds, true, p2.2⟩)
    else none

/-! ## Payload construction inside `sample` (lines 123-175)

The underlying datasets are supervision datasets: every item carries a label
(`exp_labels`) and, in the case modelled here, supplies neither `exp_latents`
nor `exp_latents_values`, so both are derived (lines 151-161). -/

/-- Dereference of a global index into the owning partition (lines 133-138)
and fetch of the item's label. -/
def itemLabel (d : DualData) (gidx : ℕ) : ℕ :=
  if gidx < d.trainLabels.length then d.trainLabels.getD gidx 0
  else d.testLabels.getD (gidx - d.trainLabels.length) 0

/-- `latent = torch.zeros((self.nbr_classes)); latent[label] = 1.0`
(lines 153-154). The values 0.0 and 1.0 are exact, modelled in ℚ. A label
`≥ n` raises an IndexError in the source; here the hypotheses of the
theorems keep labels in range. -/
def oneHot (n lab : ℕ) : List ℚ :=
  (List.range n).map (fun i => if i = lab then 1 else 0)

/-- The `for idx in indices:` loop of lines 130-163: labels and derived
one-hot latents are accumulated per item; with `target_only` the loop breaks
after the first (target) item. Returns (exp_labels, exp_latents);
`exp_latents_values` is aliased to `exp_latents` (line 160). -/
def samplePayload (d : DualData) (indices : List ℕ) (target_only : Bool) :
    List ℕ × List (List ℚ) :=
  let items := if target_only then indices.take 1 else indices
  (items.map (itemLabel d), items.map (fun i => oneHot (nbrClasses d) (itemLabel d i)))

/-- The dictionary returned by `sample` (restricted to the derived keys and
the bookkeeping recorded by `IndexSelection`). -/
structure SampleD where
  indices : List ℕ
  exp_labels : List ℕ
  exp_latents : List (List ℚ)
  exp_latents_values : List (List ℚ)
  warned : Bool
  removalCaught : Bool
deriving DecidableEq, Repr

/-- Lines 82-84: the active partition map, `self.train_classes` or (when
`'test' in self.mode`) `self.test_classes`. -/
def activeClasses (d : DualData) (mode : Mode) : List (ℕ × List ℕ) :=
  match mode with
  | .train => trainClasses d
  | .test => testClasses d

/-- Lines 85-86: in test mode the caller's index is offset by
`len(self.datasets['train'])` into the global index space. -/
def globalTarget (d : DualData) (mode : Mode) (idx : ℕ) : ℕ :=
  match mode with
  | .train => idx
  | .test => idx + d.trainLabels.length

/-- `DualLabeledDataset.sample` (lines 60-175). `nbrDistractors` is the
per-mode distractor count `self.nbr_distractors` (held by the `Dataset` base
class, not under `src/`; modelled from the spec as a per-mode configured
count read as `self.nbr_distractors[self.mode]`, line 102). -/
def sample (d : DualData) (mode : Mode) (nbrDistractors : Mode → ℕ)
    (idx : ℕ) (from_class : Option (List ℕ)) (excepts : List ℕ)
    (target_only : Bool) (rng : ℕ → ℕ) : Option SampleD :=
  let classes := activeClasses d mode
  let gidx := globalTarget d mode idx
  (sampleIndices classes gidx from_class excepts (nbrDistractors mode) rng).map
    (fun sel =>
      let pl := samplePayload d sel.indices target_only
      ⟨sel.indices, pl.1, pl.2, pl.2, sel.warned, sel.removalCaught⟩)

/-! ## Curriculum update (`ReferentialGame.train`, lines 368-379)

On every training-mode data-batch iteration the windowed accuracy is folded
with the batch accuracy; when it exceeds 75, the window holds strictly more
than `config['curriculum_distractors_window_size']` iterations, and the
current mode's distractor count is below `config['nbr_distractors'][mode]`,
the window resets and *every* dataset mode's count is incremented by one. -/

/-- Dict lookup with default 0 (the source only reads present keys). -/
def lookupNat (m : List (String × ℕ)) (k : String) : ℕ :=
  match m with
  | [] => 0
  | (c, v) :: rest => if c = k then v else lookupNat rest k

/-- The curriculum's mutable state: per-mode distractor counts of the
datasets dict, plus the accuracy window. -/
structure CurriculumState where
  counts : List (String × ℕ)
  windowedAccuracy : ℚ
  windowCount : ℕ
deriving DecidableEq, Repr

/-- One execution of the block at lines 368-379 for the current `mode` and
batch accuracy `acc`. `cfgMax` is `config['nbr_distractors']`, `windowSize`
is `config['curriculum_distractors_window_size']`.
`setNbrDistractors(getNbrDistractors(mode)+1)` is modelled from the spec as
incrementing the stored per-mode count. -/
def curriculumUpdate (cfgMax : List (String × ℕ)) (windowSize : ℕ)
    (mode : String) (st : CurriculumState) (acc : ℚ) : CurriculumState :=
  let nbr := lookupNat st.counts mode
  let wC := st.windowCount + 1
  let wA := (st.windowedAccuracy * st.windowCount + acc) / wC
  if wA > 75 ∧ wC > windowSize ∧ nbr < lookupNat cfgMax mode then
    { counts := st.counts.map (fun p => (p.1, p.2 + 1)),
      windowedAccuracy := 0,
      windowCount := 0 }
  else
    { counts := st.counts, windowedAccuracy := wA, windowCount := wC }

/-- The curriculum over a scripted sequence of per-iteration accuracies. -/
def curriculumRun (cfgMax : List (String × ℕ)) (windowSize : ℕ)
    (mode : String) (st : CurriculumState) (accs : List ℚ) : CurriculumState :=
  accs.foldl (curriculumUpdate cfgMax windowSize mode) st

/-! ## Pipeline serving order inside one experience-repetition
(`ReferentialGame.train`, lines 271-298)

The repetition body is a trace of observable actions: signal writes into the
stream handler and `serve` calls on pipelines. -/

/-- An observable action of the repetition body. -/
inductive Event where
  | serve (pid : String)
  | signal (name : String) (value : Bool)
deriving DecidableEq, Repr

/-- The `"referential_game" in pipe_id` membership test (Python substring
containment on the pipeline identifier). -/
def isRefGamePipe (pid : String) : Bool :=
  decide (List.IsInfix "referential_game".toList pid.toList)

/-- One communication round `idx_round` out of `nRounds` (lines 271-290):
the `end_of_communication` signal is written, then every pipeline whose
identifier contains `"referential_game"` is served, in dict order. -/
def roundEvents (pipeIds : List String) (nRounds idx_round : ℕ) :
    List Event :=
  Event.signal "end_of_communication" (decide (idx_round = nRounds - 1)) ::
    (pipeIds.filter isRefGamePipe).map Event.serve

/-- The whole repetition body (lines 271-298): the communication-round loop,
then one `serve` of every pipeline whose identifier does not contain
`"referential_game"`. -/
def repetitionEvents (pipeIds : List String) (nRounds : ℕ) : List Event :=
  (List.range nRounds).flatMap (roundEvents pipeIds nRounds) ++
    (pipeIds.filter (fun p => !isRefGamePipe p)).map Event.serve

/-! ## Checkpoint persistence (`ReferentialGame.save`/`load`, lines 74-172)

Control flow of the four per-artifact operations. An artifact's underlying
persist/restore operation may raise (`fail a = true`); `save_config`,
`save_pipelines`, `save_signals` and all four `load_*` wrap it in
`try/except` and continue, while `save_modules` has its `try/except`
commented out (lines 98-104), so an exception there propagates and aborts
the remaining saves. -/

/-- The four checkpoint artifacts. -/
inductive Artifact where
  | config
  | modules
  | pipelines
  | signals
deriving DecidableEq, Repr

/-- Outcome of a `save`/`load` call: which artifacts were attempted, in
order, and whether an exception escaped the call. -/
structure PersistOutcome where
  attempted : List Artifact
  escaped : Bool
deriving DecidableEq, Repr

/-- Run one per-artifact operation: if a previous operation already aborted
the sequence, nothing happens; otherwise the artifact is attempted, and a
failure escapes exactly when the operation is not wrapped in `try/except`. -/
def persistStep (caught : Bool) (fail : Artifact → Bool) (a : Artifact)
    (st : PersistOutcome) : PersistOutcome :=
  if st.escaped then st
  else { attempted := st.attempted ++ [a],
         escaped := fail a && !caught }

/-- `ReferentialGame.save` (lines 74-84): `save_config` (caught),
`save_modules` (NOT caught), `save_pipelines` (caught), `save_signals`
(caught), in this order. -/
def saveOutcome (fail : Artifact → Bool) : PersistOutcome :=
  persistStep true fail .signals
    (persistStep true fail .pipelines
      (persistStep false fail .modules
        (persistStep true fail .config ⟨[], false⟩)))

/-- `ReferentialGame.load` (lines 121-125): all four loads wrap their
operations in `try/except` (for modules, per module file). -/
def loadOutcome (fail : Artifact → Bool) : PersistOutcome :=
  persistStep true fail .signals
    (persistStep true fail .pipelines
      (persistStep true fail .modules
        (persistStep true fail .config ⟨[], false⟩)))

/-! ## Lemmas about the sorted-list set model -/

theorem mem_sinsert (a x : ℕ) (l : List ℕ) :
    a ∈ sinsert x l ↔ a = x ∨ a ∈ l := by
  induction l with
  | nil => simp [sinsert]
  | cons y ys ih =>
      by_cases h1 : x < y
      · simp [sinsert, h1, List.mem_cons]
      · by_cases h2 : x = y
        · subst h2
          simp [sinsert, h1, List.mem_cons]
        · simp [sinsert, h1, h2, List.mem_cons, ih]
          tauto

theorem sorted_sinsert (x : ℕ) (l : List ℕ) (h : l.Sorted (· < ·)) :
    (sinsert x l).Sorted (· < ·) := by
  induction l with
  | nil => simp [sinsert]
  | cons y ys ih =>
      have hy : ∀ b ∈ ys, y < b := (List.sorted_cons.mp h).1
      have hys : ys.Sorted (· < ·) := (List.sorted_cons.mp h).2
      by_cases h1 : x < y
      · simp only [sinsert, if_pos h1]
        refine List.sorted_cons.mpr ⟨?_, h⟩
        intro b hb
        rcases List.mem_cons.mp hb with rfl | hb
        · exact h1
        · exact h1.trans (hy b hb)
      · by_cases h2 : x = y
        · simpa [sinsert, h1, h2] using h
        · have hyx : y < x :=
            lt_of_le_of_ne (Nat.le_of_not_lt h1) (Ne.symm h2)
          simp only [sinsert, if_neg h1, if_neg h2]
          refine List.sorted_cons.mpr ⟨?_, ih hys⟩
          intro b hb
          rcases (mem_sinsert b x ys).mp hb with rfl | hb
          · exact hyx
          · exact hy b hb

theorem sorted_sunion (s t : List ℕ) (h : s.Sorted (· < ·)) :
    (sunion s t).Sorted (· < ·) := by
  induction t generalizing s with
  | nil => exact h
  | cons y ys ih => exact ih (sinsert y s) (sorted_sinsert y s h)

theorem mem_sunion (a : ℕ) (s t : List ℕ) :
    a ∈ sunion s t ↔ a ∈ s ∨ a ∈ t := by
  induction t generalizing s with
  | nil => simp [sunion]
  | cons y ys ih =>
      have : sunion s (y :: ys) = sunion (sinsert y s) ys := rfl
      rw [this, ih, mem_sinsert]
      simp [List.mem_cons]
      tauto

theorem sorted_classUnion (classes : List (ℕ × List ℕ)) (fc : List ℕ)
    (s : List ℕ) (h : s.Sorted (· < ·)) :
    (fc.foldl (fun s cl => sunion s (lookupClass classes cl)) s).Sorted (· < ·) := by
  induction fc generalizing s with
  | nil => exact h
  | cons c cs ih => exact ih _ (sorted_sunion s _ h)

theorem workingSet_sorted (classes : List (ℕ × List ℕ)) (fc excepts : List ℕ) :
    (workingSet classes fc excepts).Sorted (· < ·) :=
  List.Pairwise.filter _ (sorted_classUnion classes fc [] (by simp))

theorem workingSet_nodup (classes : List (ℕ × List ℕ)) (fc excepts : List ℕ) :
    (workingSet classes fc excepts).Nodup :=
  (workingSet_sorted classes fc excepts).nodup

theorem not_mem_excepts_of_mem_workingSet (classes : List (ℕ × List ℕ))
    (fc excepts : List ℕ) (a : ℕ) (h : a ∈ workingSet classes fc excepts) :
    a ∉ excepts := by
  have := List.of_mem_filter h
  simpa using this

/-! ## The draw loop -/

theorem drawIndices_spec (rng : ℕ → ℕ) (n : ℕ) :
    ∀ (s : List ℕ) (k : ℕ), s.Nodup → n ≤ s.length →
      ∃ l, drawIndices s n rng k = some l ∧ l.length = n ∧ l.Nodup ∧
        ∀ a ∈ l, a ∈ s := by
  induction n with
  | zero =>
      intro s k _ _
      exact ⟨[], rfl, rfl, List.nodup_nil, by simp⟩
  | succ m ih =>
      intro s k hnd hlen
      have hpos : 0 < s.length := lt_of_lt_of_le (Nat.succ_pos m) hlen
      have hmod : rng k % s.length < s.length := Nat.mod_lt _ hpos
      have hmem : s.getD (rng k % s.length) 0 ∈ s := by
        rw [List.getD_eq_getElem s 0 hmod]
        exact List.getElem_mem hmod
      have hlen' : m ≤ (s.erase (s.getD (rng k % s.length) 0)).length := by
        have h1 := List.length_erase_add_one hmem
        omega
      obtain ⟨rest, hrest, hlenr, hndr, hsub⟩ :=
        ih (s.erase (s.getD (rng k % s.length) 0)) (k + 1) (hnd.erase _) hlen'
      refine ⟨s.getD (rng k % s.length) 0 :: rest, ?_, by simp [hlenr], ?_, ?_⟩
      · show drawIndices s (m + 1) rng k = _
        rw [drawIndices, if_pos hpos]
        show Option.map _ (drawIndices (s.erase (s.getD (rng k % s.length) 0)) m rng (k + 1)) = _
        rw [hrest]
        rfl
      · exact List.nodup_cons.mpr
          ⟨fun hmm => hnd.not_mem_erase (hsub _ hmm), hndr⟩
      · intro a ha
        rcases List.mem_cons.mp ha with rfl | ha
        · exact hmem
        · exact List.mem_of_mem_erase (hsub a ha)

/-! ## Specification of the index-selection phase -/

theorem sampleIndices_firstPass (classes : List (ℕ × List ℕ)) (idx : ℕ)
    (fc excepts : List ℕ) (n : ℕ) (rng : ℕ → ℕ)
    (hmem : idx ∈ workingSet classes fc excepts)
    (hsize : n ≤ ((workingSet classes fc excepts).erase idx).length) :
    ∃ r, sampleIndices classes idx (some fc) excepts n rng = some r ∧
      r.indices.length = 1 + n ∧
      r.indices.head? = some idx ∧
      r.indices.Nodup ∧
      (∀ a ∈ r.indices, a = idx ∨ a ∈ (workingSet classes fc excepts).erase idx) ∧
      r.warned = false ∧ r.removalCaught = false := by
  obtain ⟨l, hl, hlen, hnd, hsub⟩ :=
    drawIndices_spec rng n ((workingSet classes fc excepts).erase idx) 0
      ((workingSet_nodup classes fc excepts).erase idx) hsize
  have hcont : (workingSet classes fc excepts).contains idx = true := by
    simpa using hmem
  refine ⟨⟨idx :: l, false, false⟩, ?_, by simp [hlen, Nat.add_comm], rfl, ?_, ?_, rfl, rfl⟩
  · show sampleIndices classes idx (some fc) excepts n rng = _
    rw [sampleIndices]
    simp only [Option.getD_some, hcont, Bool.not_true]
    rw [if_pos hsize, hl]
    rfl
  · exact List.nodup_cons.mpr
      ⟨fun hmm => (workingSet_nodup classes fc excepts).not_mem_erase (hsub _ hmm), hnd⟩
  · intro a ha
    rcases List.mem_cons.mp ha with rfl | ha
    · exact Or.inl rfl
    · exact Or.inr (hsub a ha)

theorem sampleIndices_fallback (classes : List (ℕ × List ℕ)) (idx : ℕ)
    (fc excepts : List ℕ) (n : ℕ) (rng : ℕ → ℕ)
    (hsmall : ((workingSet classes fc excepts).erase idx).length < n)
    (hmem : idx ∈ workingSet classes (keysOf classes) excepts)
    (hsize : n ≤ ((workingSet classes (keysOf classes) excepts).erase idx).length) :
    ∃ r, sampleIndices classes idx (some fc) excepts n rng = some r ∧
      r.indices.length = 1 + n ∧
      r.indices.head? = some idx ∧
      r.indices.Nodup ∧
      (∀ a ∈ r.indices,
        a = idx ∨ a ∈ (workingSet classes (keysOf classes) excepts).erase idx) ∧
      r.warned = true := by
  obtain ⟨l, hl, hlen, hnd, hsub⟩ :=
    drawIndices_spec rng n ((workingSet classes (keysOf classes) excepts).erase idx) 0
      ((workingSet_nodup classes (keysOf classes) excepts).erase idx) hsize
  have hcont : (workingSet classes (keysOf classes) excepts).contains idx = true := by
    simpa using hmem
  refine ⟨⟨idx :: l, true, false⟩, ?_, by simp [hlen, Nat.add_comm], rfl, ?_, ?_, rfl⟩
  · show sampleIndices classes idx (some fc) excepts n rng = _
    rw [sampleIndices]
    simp only [Option.getD_some, hcont, Bool.not_true]
    rw [if_neg (Nat.not_le_of_lt hsmall), if_pos hsize, hl]
    rfl
  · exact List.nodup_cons.mpr
      ⟨fun hmm =>
        (workingSet_nodup classes (keysOf classes) excepts).not_mem_erase (hsub _ hmm),
        hnd⟩
  · intro a ha
    rcases List.mem_cons.mp ha with rfl | ha
    · exact Or.inl rfl
    · exact Or.inr (hsub a ha)

/-! ## Lemmas about the partition maps -/

theorem lookup_addToClassMap_self (m : List (ℕ × List ℕ)) (cl idx : ℕ) :
    lookupClass (addToClassMap m cl idx) cl = lookupClass m cl ++ [idx] := by
  induction m with
  | nil => simp [addToClassMap, lookupClass]
  | cons p rest ih =>
      obtain ⟨c, l⟩ := p
      by_cases h : c = cl
      · subst h
        simp [addToClassMap, lookupClass]
      · simp [addToClassMap, lookupClass, h, ih]

theorem lookup_addToClassMap_ne (m : List (ℕ × List ℕ)) (c cl idx : ℕ)
    (h : c ≠ cl) :
    lookupClass (addToClassMap m cl idx) c = lookupClass m c := by
  have hcl : ¬(cl = c) := fun hh => h hh.symm
  induction m with
  | nil =>
      simp [addToClassMap, lookupClass, hcl]
  | cons p rest ih =>
      obtain ⟨c', l⟩ := p
      by_cases h' : c' = cl
      · subst h'
        simp [addToClassMap, lookupClass, hcl]
      · simp [addToClassMap, lookupClass, h', ih]

theorem mem_keys_addToClassMap (m : List (ℕ × List ℕ)) (a cl idx : ℕ) :
    a ∈ keysOf (addToClassMap m cl idx) ↔ a = cl ∨ a ∈ keysOf m := by
  induction m with
  | nil => simp [addToClassMap, keysOf]
  | cons p rest ih =>
      obtain ⟨c, l⟩ := p
      by_cases h : c = cl
      · subst h
        simp [addToClassMap, keysOf, List.mem_cons]
      · simp [addToClassMap, keysOf, h, List.mem_cons] at ih ⊢
        tauto

theorem lookup_append_nil_entry (m : List (ℕ × List ℕ)) (cl c : ℕ) :
    lookupClass (m ++ [(cl, [])]) c = lookupClass m c := by
  induction m with
  | nil => simp [lookupClass]
  | cons p rest ih =>
      obtain ⟨c', l⟩ := p
      by_cases h : c' = c
      · simp [lookupClass, h]
      · simp only [List.cons_append, lookupClass, if_neg h]
        exact ih

theorem lookup_ensureKey (m : List (ℕ × List ℕ)) (cl c : ℕ) :
    lookupClass (ensureKey m cl) c = lookupClass m c := by
  unfold ensureKey
  split
  · rfl
  · exact lookup_append_nil_entry m cl c

theorem mem_keys_ensureKey (m : List (ℕ × List ℕ)) (a cl : ℕ) :
    a ∈ keysOf (ensureKey m cl) ↔ a = cl ∨ a ∈ keysOf m := by
  unfold ensureKey
  split
  · rename_i h
    constructor
    · exact Or.inr
    · rintro (rfl | ha)
      · exact h
      · exact ha
  · simp [keysOf]
    tauto

theorem lookup_addAll_self (idxs : List ℕ) :
    ∀ (t : List (ℕ × List ℕ)) (cl : ℕ),
      lookupClass (idxs.foldl (fun t i => addToClassMap t cl i) t) cl =
        lookupClass t cl ++ idxs := by
  induction idxs with
  | nil => simp
  | cons i is ih =>
      intro t cl
      rw [List.foldl_cons, ih, lookup_addToClassMap_self]
      simp

theorem lookup_addAll_ne (idxs : List ℕ) :
    ∀ (t : List (ℕ × List ℕ)) (cl c : ℕ), c ≠ cl →
      lookupClass (idxs.foldl (fun t i => addToClassMap t cl i) t) c =
        lookupClass t c := by
  induction idxs with
  | nil => simp
  | cons i is ih =>
      intro t cl c hc
      rw [List.foldl_cons, ih _ _ _ hc, lookup_addToClassMap_ne _ _ _ _ hc]

theorem mem_keys_addAll (idxs : List ℕ) :
    ∀ (t : List (ℕ × List ℕ)) (cl a : ℕ), a ∈ keysOf t →
      a ∈ keysOf (idxs.foldl (fun t i => addToClassMap t cl i) t) := by
  induction idxs with
  | nil => exact fun t cl a h => h
  | cons i is ih =>
      intro t cl a h
      exact ih _ cl a ((mem_keys_addToClassMap t a cl i).mpr (Or.inr h))

theorem lookup_mono_mergeStep (t : List (ℕ × List ℕ)) (p : ℕ × List ℕ)
    (c i : ℕ) (h : i ∈ lookupClass t c) :
    i ∈ lookupClass (mergeStep t p) c := by
  by_cases hc : c = p.1
  · subst hc
    rw [mergeStep, lookup_addAll_self, lookup_ensureKey]
    exact List.mem_append_left _ h
  · rw [mergeStep, lookup_addAll_ne _ _ _ _ hc, lookup_ensureKey]
    exact h

theorem mem_keys_mergeStep (t : List (ℕ × List ℕ)) (p : ℕ × List ℕ)
    (a : ℕ) (h : a ∈ keysOf t) : a ∈ keysOf (mergeStep t p) :=
  mem_keys_addAll p.2 _ p.1 a ((mem_keys_ensureKey t a p.1).mpr (Or.inr h))

theorem lookup_mono_mergeFold (ps : List (ℕ × List ℕ)) :
    ∀ (t : List (ℕ × List ℕ)) (c i : ℕ), i ∈ lookupClass t c →
      i ∈ lookupClass (ps.foldl mergeStep t) c := by
  induction ps with
  | nil => exact fun t c i h => h
  | cons p rest ih =>
      intro t c i h
      exact ih _ c i (lookup_mono_mergeStep t p c i h)

theorem mem_keys_mergeFold (ps : List (ℕ × List ℕ)) :
    ∀ (t : List (ℕ × List ℕ)) (a : ℕ), a ∈ keysOf t →
      a ∈ keysOf (ps.foldl mergeStep t) := by
  induction ps with
  | nil => exact fun t a h => h
  | cons p rest ih =>
      intro t a h
      exact ih _ a (mem_keys_mergeStep t p a h)

theorem merge_lookup_contains (ps : List (ℕ × List ℕ)) :
    ∀ (t : List (ℕ × List ℕ)) (cl : ℕ) (idxs : List ℕ), (cl, idxs) ∈ ps →
      ∀ i ∈ idxs, i ∈ lookupClass (ps.foldl mergeStep t) cl := by
  induction ps with
  | nil => simp
  | cons p rest ih =>
      intro t cl idxs hmem i hi
      rcases List.mem_cons.mp hmem with h | h
      · apply lookup_mono_mergeFold rest
        subst h
        show i ∈ lookupClass
          (idxs.foldl (fun t j => addToClassMap t cl j) (ensureKey t cl)) cl
        rw [lookup_addAll_self, lookup_ensureKey]
        exact List.mem_append_right _ hi
      · exact ih _ cl idxs h i hi

theorem merge_keys_contains (ps : List (ℕ × List ℕ)) :
    ∀ (t : List (ℕ × List ℕ)) (cl : ℕ) (idxs : List ℕ), (cl, idxs) ∈ ps →
      cl ∈ keysOf (ps.foldl mergeStep t) := by
  induction ps with
  | nil => simp
  | cons p rest ih =>
      intro t cl idxs hmem
      rcases List.mem_cons.mp hmem with h | h
      · apply mem_keys_mergeFold rest
        subst h
        show cl ∈ keysOf
          (idxs.foldl (fun t j => addToClassMap t cl j) (ensureKey t cl))
        exact mem_keys_addAll _ _ _ _ ((mem_keys_ensureKey t cl cl).mpr (Or.inl rfl))
      · exact ih _ cl idxs h

theorem mem_keys_buildFold (off : ℕ) (ps : List (ℕ × ℕ)) :
    ∀ (m : List (ℕ × List ℕ)) (a : ℕ),
      a ∈ keysOf (ps.foldl (fun m p => addToClassMap m p.2 (off + p.1)) m) ↔
        a ∈ keysOf m ∨ a ∈ ps.map Prod.snd := by
  induction ps with
  | nil => simp
  | cons p rest ih =>
      intro m a
      rw [List.foldl_cons, ih, mem_keys_addToClassMap]
      simp [List.mem_cons]
      tauto

theorem mem_keys_buildClasses (labels : List ℕ) (off a : ℕ) :
    a ∈ keysOf (buildClasses labels off) ↔ a ∈ labels := by
  rw [buildClasses, mem_keys_buildFold off labels.enum [] a]
  simp [keysOf, List.enum_map_snd]

theorem mem_self_lookup (m : List (ℕ × List ℕ)) (cl : ℕ)
    (h : cl ∈ keysOf m) : (cl, lookupClass m cl) ∈ m := by
  induction m with
  | nil => simp [keysOf] at h
  | cons p rest ih =>
      obtain ⟨c, l⟩ := p
      by_cases hc : c = cl
      · subst hc
        simp [lookupClass]
      · simp only [keysOf, List.map_cons, List.mem_cons] at h
        rcases h with h | h
        · exact absurd h.symm hc
        · simp only [lookupClass, if_neg hc]
          exact List.mem_cons_of_mem _ (ih h)

/-! ## Distinctness of the partition-map keys -/

theorem keys_nodup_addToClassMap (m : List (ℕ × List ℕ)) (cl idx : ℕ)
    (h : (keysOf m).Nodup) : (keysOf (addToClassMap m cl idx)).Nodup := by
  induction m with
  | nil => simp [addToClassMap, keysOf]
  | cons p rest ih =>
      obtain ⟨c, l⟩ := p
      simp only [keysOf, List.map_cons, List.nodup_cons] at h
      by_cases hc : c = cl
      · subst hc
        have he : addToClassMap ((c, l) :: rest) c idx = (c, l ++ [idx]) :: rest := by
          simp [addToClassMap]
        rw [he]
        simpa [keysOf, List.nodup_cons] using h
      · simp only [addToClassMap, if_neg hc, keysOf, List.map_cons,
          List.nodup_cons]
        refine ⟨?_, ih h.2⟩
        intro hmm
        rcases (mem_keys_addToClassMap rest c cl idx).mp hmm with rfl | hmm
        · exact hc rfl
        · exact h.1 hmm

theorem keys_nodup_ensureKey (m : List (ℕ × List ℕ)) (cl : ℕ)
    (h : (keysOf m).Nodup) : (keysOf (ensureKey m cl)).Nodup := by
  unfold ensureKey
  split
  · exact h
  · rename_i hcl
    have he : keysOf (m ++ [(cl, [])]) = keysOf m ++ [cl] := by
      simp [keysOf]
    rw [he]
    refine h.append (List.nodup_cons.mpr ⟨List.not_mem_nil cl, List.nodup_nil⟩) ?_
    intro a ha hb
    rw [List.mem_singleton] at hb
    subst hb
    exact hcl ha

theorem keys_nodup_addAll (idxs : List ℕ) :
    ∀ (t : List (ℕ × List ℕ)) (cl : ℕ), (keysOf t).Nodup →
      (keysOf (idxs.foldl (fun t i => addToClassMap t cl i) t)).Nodup := by
  induction idxs with
  | nil => exact fun t cl h => h
  | cons i is ih =>
      intro t cl h
      exact ih _ cl (keys_nodup_addToClassMap t cl i h)

theorem keys_nodup_mergeStep (t : List (ℕ × List ℕ)) (p : ℕ × List ℕ)
    (h : (keysOf t).Nodup) : (keysOf (mergeStep t p)).Nodup :=
  keys_nodup_addAll p.2 _ p.1 (keys_nodup_ensureKey t p.1 h)

theorem keys_nodup_mergeFold (ps : List (ℕ × List ℕ)) :
    ∀ (t : List (ℕ × List ℕ)), (keysOf t).Nodup →
      (keysOf (ps.foldl mergeStep t)).Nodup := by
  induction ps with
  | nil => exact fun t h => h
  | cons p rest ih =>
      intro t h
      exact ih _ (keys_nodup_mergeStep t p h)

theorem keys_nodup_buildFold (off : ℕ) (ps : List (ℕ × ℕ)) :
    ∀ (m : List (ℕ × List ℕ)), (keysOf m).Nodup →
      (keysOf (ps.foldl (fun m p => addToClassMap m p.2 (off + p.1)) m)).Nodup := by
  induction ps with
  | nil => exact fun m h => h
  | cons p rest ih =>
      intro m h
      exact ih _ (keys_nodup_addToClassMap m p.2 (off + p.1) h)

theorem keys_nodup_buildClasses (labels : List ℕ) (off : ℕ) :
    (keysOf (buildClasses labels off)).Nodup :=
  keys_nodup_buildFold off labels.enum [] (by simp [keysOf])

theorem keys_nodup_testClasses (d : DualData) :
    (keysOf (testClasses d)).Nodup :=
  keys_nodup_mergeFold (trainClasses d) (testClassesRaw d)
    (keys_nodup_buildClasses d.testLabels d.trainLabels.length)

/-! ## Lemmas about the curriculum update -/

theorem lookupNat_map_inc (counts : List (String × ℕ)) (m : String) :
    lookupNat counts m ≤
        lookupNat (counts.map (fun p => (p.1, p.2 + 1))) m ∧
      lookupNat (counts.map (fun p => (p.1, p.2 + 1))) m ≤
        lookupNat counts m + 1 := by
  induction counts with
  | nil => simp [lookupNat]
  | cons p rest ih =>
      obtain ⟨c, v⟩ := p
      by_cases h : c = m
      · simp [lookupNat, h]
      · simpa [lookupNat, h] using ih

theorem curriculumUpdate_counts_mono (cfgMax : List (String × ℕ)) (ws : ℕ)
    (mode : String) (st : CurriculumState) (acc : ℚ) (m : String) :
    lookupNat st.counts m ≤
      lookupNat (curriculumUpdate cfgMax ws mode st acc).counts m := by
  unfold curriculumUpdate
  dsimp only
  split
  · exact (lookupNat_map_inc st.counts m).1
  · exact le_refl _

theorem curriculumUpdate_cap (cfgMax : List (String × ℕ)) (ws : ℕ)
    (mode : String) (st : CurriculumState) (acc : ℚ)
    (hcap : lookupNat st.counts mode ≤ lookupNat cfgMax mode) :
    lookupNat (curriculumUpdate cfgMax ws mode st acc).counts mode ≤
      lookupNat cfgMax mode := by
  unfold curriculumUpdate
  dsimp only
  split
  · rename_i hcond
    dsimp only
    have h1 := (lookupNat_map_inc st.counts mode).2
    have h2 := hcond.2.2
    omega
  · exact hcap

theorem curriculumRun_counts_mono (cfgMax : List (String × ℕ)) (ws : ℕ)
    (mode : String) (accs : List ℚ) :
    ∀ (st : CurriculumState) (m : String),
      lookupNat st.counts m ≤
        lookupNat (curriculumRun cfgMax ws mode st accs).counts m := by
  induction accs with
  | nil => exact fun st m => le_refl _
  | cons a rest ih =>
      intro st m
      exact le_trans (curriculumUpdate_counts_mono cfgMax ws mode st a m)
        (ih _ m)

theorem curriculumRun_cap (cfgMax : List (String × ℕ)) (ws : ℕ)
    (mode : String) (accs : List ℚ) :
    ∀ (st : CurriculumState),
      lookupNat st.counts mode ≤ lookupNat cfgMax mode →
      lookupNat (curriculumRun cfgMax ws mode st accs).counts mode ≤
        lookupNat cfgMax mode := by
  induction accs with
  | nil => exact fun st h => h
  | cons a rest ih =>
      intro st h
      exact ih _ (curriculumUpdate_cap cfgMax ws mode st a h)

/-! ## Lemmas about the repetition trace -/

theorem count_serve_map_serve (ps : List String) (p : String) :
    (ps.map Event.serve).count (Event.serve p) = ps.count p :=
  List.count_map_of_injective ps Event.serve
    (fun a b h => by cases h; rfl) p

theorem count_signal_map_serve (ps : List String) (nm : String) (b : Bool) :
    (ps.map Event.serve).count (Event.signal nm b) = 0 := by
  rw [List.count_eq_zero]
  intro hmm
  rcases List.mem_map.mp hmm with ⟨a, _, h⟩
  exact Event.noConfusion h

theorem count_filter_if (f : String → Bool) (ps : List String) (p : String) :
    (ps.filter f).count p = if f p then ps.count p else 0 := by
  by_cases h : f p
  · rw [if_pos h]
    exact List.count_filter h
  · rw [if_neg h, List.count_eq_zero]
    intro hmm
    exact h (List.of_mem_filter hmm)

theorem count_serve_roundEvents (ps : List String) (n r : ℕ) (p : String) :
    (roundEvents ps n r).count (Event.serve p) =
      (ps.filter isRefGamePipe).count p := by
  rw [roundEvents, List.count_cons, count_serve_map_serve]
  simp

theorem count_signal_roundEvents (ps : List String) (n r : ℕ) (b : Bool) :
    (roundEvents ps n r).count (Event.signal "end_of_communication" b) =
      if decide (r = n - 1) = b then 1 else 0 := by
  rw [roundEvents, List.count_cons, count_signal_map_serve]
  by_cases h : decide (r = n - 1) = b
  · simp [h]
  · have h2 : ¬(b = decide (r = n - 1)) := fun hh => h hh.symm
    simp [h, h2]

theorem count_serve_rounds (ps : List String) (n : ℕ) (p : String) :
    ∀ rs : List ℕ,
      (rs.flatMap (roundEvents ps n)).count (Event.serve p) =
        rs.length * (ps.filter isRefGamePipe).count p := by
  intro rs
  induction' rs with r rest ih
  · simp
  · rw [List.flatMap_cons, List.count_append, count_serve_roundEvents, ih]
    simp [Nat.succ_mul, Nat.add_comm]

theorem count_signal_rounds_ne (ps : List String) (n : ℕ) :
    ∀ rs : List ℕ, (∀ r ∈ rs, r ≠ n - 1) →
      (rs.flatMap (roundEvents ps n)).count
          (Event.signal "end_of_communication" true) = 0 ∧
      (rs.flatMap (roundEvents ps n)).count
          (Event.signal "end_of_communication" false) = rs.length := by
  intro rs
  induction' rs with r rest ih
  · simp
  · intro hne
    have hr : r ≠ n - 1 := hne r (List.mem_cons_self r rest)
    have hrec := ih (fun a ha => hne a (List.mem_cons_of_mem r ha))
    constructor
    · rw [List.flatMap_cons, List.count_append, count_signal_roundEvents,
        hrec.1]
      simp [hr]
    · rw [List.flatMap_cons, List.count_append, count_signal_roundEvents,
        hrec.2]
      simp [hr]
      omega

/-! ## Lemmas about the derived one-hot latents -/

theorem oneHot_length (n lab : ℕ) : (oneHot n lab).length = n := by
  simp [oneHot]

theorem oneHot_getD_self (n lab : ℕ) (h : lab < n) :
    (oneHot n lab).getD lab 0 = 1 := by
  rw [oneHot, List.getD_eq_getElem _ _ (by simpa using h), List.getElem_map]
  simp

theorem oneHot_getD_ne (n lab j : ℕ) (hj : j < n) (hne : j ≠ lab) :
    (oneHot n lab).getD j 0 = 0 := by
  rw [oneHot, List.getD_eq_getElem _ _ (by simpa using hj), List.getElem_map]
  simp [List.getElem_range, hne]

theorem getD_take_eq (l : List ℕ) (m k : ℕ) (hk : k < (l.take m).length) :
    (l.take m).getD k 0 = l.getD k 0 := by
  have hk2 : k < l.length := by
    have := l.length_take m
    omega
  rw [List.getD_eq_getElem _ _ hk, List.getD_eq_getElem _ _ hk2]
  simp [List.getElem_take]

/-! ## Claim theorems -/

/-- C1: for every call to `DualLabeledDataset.sample` with a valid target
index (a member of the working set built from the candidate classes minus
the exclusions) such that the working set minus the target has at least
`nbr_distractors[mode]` elements, the returned `indices` list has exactly
`1 + nbr_distractors[mode]` elements, its first element is the (global)
target index, all elements are pairwise distinct, and none of them is in
the exclusion list. -/
theorem sample_valid_grouped_indices
    (d : DualData) (mode : Mode) (nd : Mode → ℕ) (idx : ℕ)
    (fc excepts : List ℕ) (rng : ℕ → ℕ)
    (hmem : globalTarget d mode idx ∈ workingSet (activeClasses d mode) fc excepts)
    (hsize : nd mode ≤
      ((workingSet (activeClasses d mode) fc excepts).erase
        (globalTarget d mode idx)).length) :
    ∃ s, sample d mode nd idx (some fc) excepts false rng = some s ∧
      s.indices.length = 1 + nd mode ∧
      s.indices.head? = some (globalTarget d mode idx) ∧
      s.indices.Nodup ∧
      ∀ a ∈ s.indices, a ∉ excepts := by
  obtain ⟨r, hr, hlen, hhead, hnd2, hmemall, _, _⟩ :=
    sampleIndices_firstPass (activeClasses d mode) (globalTarget d mode idx)
      fc excepts (nd mode) rng hmem hsize
  refine ⟨⟨r.indices, (samplePayload d r.indices false).1,
      (samplePayload d r.indices false).2, (samplePayload d r.indices false).2,
      r.warned, r.removalCaught⟩, ?_, hlen, hhead, hnd2, ?_⟩
  · show (sampleIndices (activeClasses d mode) (globalTarget d mode idx)
        (some fc) excepts (nd mode) rng).map _ = _
    rw [hr]
    rfl
  · intro a ha
    rcases hmemall a ha with rfl | h
    · exact not_mem_excepts_of_mem_workingSet _ _ _ _ hmem
    · exact not_mem_excepts_of_mem_workingSet _ _ _ _ (List.mem_of_mem_erase h)

/-- Witness for C1 at a concrete input: train partition `{0:[0,1], 1:[2]}`,
target 0, candidate classes `[0,1]`, exclusions `[1]`, one distractor. -/
theorem sample_valid_grouped_indices_witness :
    (0 ∈ workingSet (activeClasses ⟨[0,0,1],[1]⟩ .train) [0,1] [1] ∧
      1 ≤ ((workingSet (activeClasses ⟨[0,0,1],[1]⟩ .train) [0,1] [1]).erase 0).length) ∧
    (∃ s, sample ⟨[0,0,1],[1]⟩ .train (fun _ => 1) 0 (some [0,1]) [1] false
        (fun _ => 0) = some s ∧
      s.indices.length = 1 + 1 ∧
      s.indices.head? = some 0 ∧
      s.indices.Nodup ∧
      ∀ a ∈ s.indices, a ∉ [1]) :=
  ⟨⟨by decide, by decide⟩,
    sample_valid_grouped_indices ⟨[0,0,1],[1]⟩ .train (fun _ => 1) 0 [0,1] [1]
      (fun _ => 0) (by decide) (by decide)⟩

/-- C2: when the caller-restricted candidate classes yield a working set
(minus the target) smaller than `nbr_distractors[mode]`, `sample` widens the
candidate set to all classes of the active map, retries, and — the full
class set being sufficient — still returns `1 + nbr_distractors[mode]`
indices (with the "not enough elements" warning) rather than failing. -/
theorem sample_sparsity_fallback
    (d : DualData) (mode : Mode) (nd : Mode → ℕ) (idx : ℕ)
    (fc excepts : List ℕ) (rng : ℕ → ℕ)
    (hsmall : ((workingSet (activeClasses d mode) fc excepts).erase
      (globalTarget d mode idx)).length < nd mode)
    (hmem : globalTarget d mode idx ∈
      workingSet (activeClasses d mode) (keysOf (activeClasses d mode)) excepts)
    (hsize : nd mode ≤
      ((workingSet (activeClasses d mode) (keysOf (activeClasses d mode)) excepts).erase
        (globalTarget d mode idx)).length) :
    ∃ s, sample d mode nd idx (some fc) excepts false rng = some s ∧
      s.warned = true ∧
      s.indices.length = 1 + nd mode ∧
      s.indices.head? = some (globalTarget d mode idx) ∧
      s.indices.Nodup := by
  obtain ⟨r, hr, hlen, hhead, hnd2, _, hwarn⟩ :=
    sampleIndices_fallback (activeClasses d mode) (globalTarget d mode idx)
      fc excepts (nd mode) rng hsmall hmem hsize
  refine ⟨⟨r.indices, (samplePayload d r.indices false).1,
      (samplePayload d r.indices false).2, (samplePayload d r.indices false).2,
      r.warned, r.removalCaught⟩, ?_, hwarn, hlen, hhead, hnd2⟩
  show (sampleIndices (activeClasses d mode) (globalTarget d mode idx)
      (some fc) excepts (nd mode) rng).map _ = _
  rw [hr]
  rfl

/-- C4: after `DualLabeledDataset.__init__`, the test partition map contains
every class key present in the train partition map, with all of that class's
(un-offset) train indices unioned into the test map's entry; and the train
map does not receive test-only classes — a class of the test dataset that
labels no train item is absent from the train map. -/
theorem dual_dataset_partition_invariant (d : DualData) :
    (∀ cl ∈ keysOf (trainClasses d), cl ∈ keysOf (testClasses d)) ∧
    (∀ cl ∈ keysOf (trainClasses d),
      ∀ i ∈ lookupClass (trainClasses d) cl,
        i ∈ lookupClass (testClasses d) cl) ∧
    (∀ cl ∈ keysOf (testClassesRaw d), cl ∉ d.trainLabels →
      cl ∉ keysOf (trainClasses d)) := by
  refine ⟨?_, ?_, ?_⟩
  · intro cl hcl
    exact merge_keys_contains (trainClasses d) (testClassesRaw d) cl _
      (mem_self_lookup _ cl hcl)
  · intro cl hcl i hi
    exact merge_lookup_contains (trainClasses d) (testClassesRaw d) cl _
      (mem_self_lookup _ cl hcl) i hi
  · intro cl _ h hmem
    exact h ((mem_keys_buildClasses d.trainLabels 0 cl).mp hmem)

/-- Witness for C4: train labels `[0,1]`, test labels `[1,2]` — class 0 and
its train index 0 appear in the merged test map, while the test-only class 2
is absent from the train map. -/
theorem dual_dataset_partition_invariant_witness :
    (0 ∈ keysOf (trainClasses ⟨[0,1],[1,2]⟩) ∧
      0 ∈ keysOf (testClasses ⟨[0,1],[1,2]⟩)) ∧
    (0 ∈ lookupClass (trainClasses ⟨[0,1],[1,2]⟩) 0 ∧
      0 ∈ lookupClass (testClasses ⟨[0,1],[1,2]⟩) 0) ∧
    (2 ∈ keysOf (testClassesRaw ⟨[0,1],[1,2]⟩) ∧ 2 ∉ [0,1] ∧
      2 ∉ keysOf (trainClasses ⟨[0,1],[1,2]⟩)) :=
  ⟨⟨by decide,
      (dual_dataset_partition_invariant ⟨[0,1],[1,2]⟩).1 0 (by decide)⟩,
    ⟨by decide,
      (dual_dataset_partition_invariant ⟨[0,1],[1,2]⟩).2.1 0 (by decide) 0 (by decide)⟩,
    ⟨by decide, by decide,
      (dual_dataset_partition_invariant ⟨[0,1],[1,2]⟩).2.2 2 (by decide) (by decide)⟩⟩

/-- C8: every item selected by `sample` (the underlying datasets supplying
labels but no latents, as modelled) gets a derived `exp_latents` vector that
is the one-hot encoding of that very item's label over `self.nbr_classes`:
the `k`-th latent is the one-hot of the `k`-th selected index's label —
length `nbrClasses`, entry 1.0 at that item's label index, 0.0 at every
other index. -/
theorem sample_one_hot_latents
    (d : DualData) (mode : Mode) (nd : Mode → ℕ) (idx : ℕ)
    (from_class : Option (List ℕ)) (excepts : List ℕ) (t_only : Bool)
    (rng : ℕ → ℕ) (s : SampleD)
    (hs : sample d mode nd idx from_class excepts t_only rng = some s)
    (hlab : ∀ g ∈ s.indices, itemLabel d g < nbrClasses d) :
    ∀ k, k < s.exp_latents.length →
      s.indices.getD k 0 ∈ s.indices ∧
      s.exp_latents.getD k [] =
        oneHot (nbrClasses d) (itemLabel d (s.indices.getD k 0)) ∧
      (oneHot (nbrClasses d) (itemLabel d (s.indices.getD k 0))).length =
        nbrClasses d ∧
      (oneHot (nbrClasses d) (itemLabel d (s.indices.getD k 0))).getD
        (itemLabel d (s.indices.getD k 0)) 0 = 1 ∧
      ∀ j < nbrClasses d, j ≠ itemLabel d (s.indices.getD k 0) →
        (oneHot (nbrClasses d) (itemLabel d (s.indices.getD k 0))).getD
          j 0 = 0 := by
  rcases Option.map_eq_some'.mp hs with ⟨sel, hsel, hfs⟩
  subst hfs
  intro k hk
  simp only [samplePayload] at hk ⊢
  have hk' : k < (if t_only then sel.indices.take 1 else sel.indices).length := by
    simpa using hk
  have hklen : k < sel.indices.length := by
    by_cases ht : t_only
    · rw [if_pos ht] at hk'
      have := sel.indices.length_take 1
      omega
    · rw [if_neg ht] at hk'
      exact hk'
  have hgd : (if t_only then sel.indices.take 1 else sel.indices).getD k 0 =
      sel.indices.getD k 0 := by
    by_cases ht : t_only
    · rw [if_pos ht] at hk' ⊢
      exact getD_take_eq sel.indices 1 k hk'
    · rw [if_neg ht]
  have hmem : sel.indices.getD k 0 ∈ sel.indices := by
    rw [List.getD_eq_getElem _ _ hklen]
    exact List.getElem_mem hklen
  have hlab' : itemLabel d (sel.indices.getD k 0) < nbrClasses d :=
    hlab _ hmem
  refine ⟨hmem, ?_, oneHot_length _ _, oneHot_getD_self _ _ hlab',
    fun j hj hjne => oneHot_getD_ne _ _ _ hj hjne⟩
  have hmap : k < ((if t_only then sel.indices.take 1 else sel.indices).map
      (fun i => oneHot (nbrClasses d) (itemLabel d i))).length := by
    simpa using hk'
  rw [List.getD_eq_getElem _ _ hmap, List.getElem_map, ← hgd,
    List.getD_eq_getElem _ _ hk']

/-- Witness for C8: train labels `[0,0,1]`, test labels `[1]`, one
distractor, target 0 — the first derived latent is the one-hot of the first
selected index's label. -/
theorem sample_one_hot_latents_witness :
    (sample ⟨[0,0,1],[1]⟩ .train (fun _ => 1) 0 none [] false (fun _ => 0) =
        some ⟨[0,1], [0,0], [[1,0],[1,0]], [[1,0],[1,0]], false, false⟩ ∧
      (∀ g ∈ ([0,1] : List ℕ),
        itemLabel ⟨[0,0,1],[1]⟩ g < nbrClasses ⟨[0,0,1],[1]⟩) ∧
      0 < ([[1,0],[1,0]] : List (List ℚ)).length) ∧
    (([0,1] : List ℕ).getD 0 0 ∈ ([0,1] : List ℕ) ∧
      ([[1,0],[1,0]] : List (List ℚ)).getD 0 [] =
        oneHot (nbrClasses ⟨[0,0,1],[1]⟩)
          (itemLabel ⟨[0,0,1],[1]⟩ (([0,1] : List ℕ).getD 0 0)) ∧
      (oneHot (nbrClasses ⟨[0,0,1],[1]⟩)
          (itemLabel ⟨[0,0,1],[1]⟩ (([0,1] : List ℕ).getD 0 0))).length =
        nbrClasses ⟨[0,0,1],[1]⟩ ∧
      (oneHot (nbrClasses ⟨[0,0,1],[1]⟩)
          (itemLabel ⟨[0,0,1],[1]⟩ (([0,1] : List ℕ).getD 0 0))).getD
        (itemLabel ⟨[0,0,1],[1]⟩ (([0,1] : List ℕ).getD 0 0)) 0 = 1 ∧
      ∀ j < nbrClasses ⟨[0,0,1],[1]⟩,
        j ≠ itemLabel ⟨[0,0,1],[1]⟩ (([0,1] : List ℕ).getD 0 0) →
          (oneHot (nbrClasses ⟨[0,0,1],[1]⟩)
            (itemLabel ⟨[0,0,1],[1]⟩ (([0,1] : List ℕ).getD 0 0))).getD
            j 0 = 0) :=
  ⟨⟨by rfl, by decide, by decide⟩,
    sample_one_hot_latents ⟨[0,0,1],[1]⟩ .train (fun _ => 1) 0 none [] false
      (fun _ => 0) ⟨[0,1], [0,0], [[1,0],[1,0]], [[1,0],[1,0]], false, false⟩
      (by rfl) (by decide) 0 (by decide)⟩

/-- C10: the one-hot `exp_latents` derived by `sample` always has length
`self.nbr_classes = len(self.test_classes)` (fixed at construction, in any
mode), while `getNbrClasses()` in train mode reports only
`len(self.train_classes)`; with a test-only class present, the latent length
strictly exceeds `getNbrClasses()` in train mode. -/
theorem train_latent_longer_than_nbr_classes
    (d : DualData) (mode : Mode) (nd : Mode → ℕ) (idx : ℕ)
    (from_class : Option (List ℕ)) (excepts : List ℕ) (t_only : Bool)
    (rng : ℕ → ℕ) (s : SampleD)
    (hs : sample d mode nd idx from_class excepts t_only rng = some s)
    (cl : ℕ) (hcl : cl ∈ keysOf (testClassesRaw d))
    (hnotin : cl ∉ d.trainLabels) :
    (∀ v ∈ s.exp_latents, v.length = nbrClasses d) ∧
    getNbrClasses d .train = (trainClasses d).length ∧
    getNbrClasses d .train < nbrClasses d := by
  refine ⟨?_, rfl, ?_⟩
  · rcases Option.map_eq_some'.mp hs with ⟨sel, _, hfs⟩
    subst hfs
    intro v hv
    simp only [samplePayload] at hv
    rcases List.mem_map.mp hv with ⟨g, _, rfl⟩
    exact oneHot_length _ _
  · have hTnd : (keysOf (testClasses d)).Nodup := keys_nodup_testClasses d
    have hSnd : (keysOf (trainClasses d)).Nodup :=
      keys_nodup_buildClasses d.trainLabels 0
    have hsubset : ∀ a ∈ keysOf (trainClasses d), a ∈ keysOf (testClasses d) :=
      fun a ha => merge_keys_contains (trainClasses d) (testClassesRaw d) a _
        (mem_self_lookup _ a ha)
    have hclT : cl ∈ keysOf (testClasses d) :=
      mem_keys_mergeFold (trainClasses d) (testClassesRaw d) cl hcl
    have hclS : cl ∉ keysOf (trainClasses d) :=
      fun hmm => hnotin ((mem_keys_buildClasses d.trainLabels 0 cl).mp hmm)
    have hfs : (keysOf (trainClasses d)).toFinset ⊂
        (keysOf (testClasses d)).toFinset := by
      rw [Finset.ssubset_iff_of_subset]
      · exact ⟨cl, by simpa using hclT, by simpa using hclS⟩
      · intro a ha
        rw [List.mem_toFinset] at ha
        rw [List.mem_toFinset]
        exact hsubset a ha
    have hcard := Finset.card_lt_card hfs
    rw [List.toFinset_card_of_nodup hSnd, List.toFinset_card_of_nodup hTnd]
      at hcard
    have hl1 : (keysOf (trainClasses d)).length = (trainClasses d).length :=
      List.length_map _ _
    have hl2 : (keysOf (testClasses d)).length = (testClasses d).length :=
      List.length_map _ _
    show (trainClasses d).length < (testClasses d).length
    omega

/-- Witness for C10: train labels `[0,1]`, test labels `[1,2]` — the latent
vectors have length 3 while `getNbrClasses()` in train mode is 2. -/
theorem train_latent_longer_than_nbr_classes_witness :
    (sample ⟨[0,1],[1,2]⟩ .train (fun _ => 1) 0 none [] false (fun _ => 0) =
        some ⟨[0,1], [0,1], [[1,0,0],[0,1,0]], [[1,0,0],[0,1,0]],
          false, false⟩ ∧
      2 ∈ keysOf (testClassesRaw ⟨[0,1],[1,2]⟩) ∧ 2 ∉ [0,1]) ∧
    ((∀ v ∈ ([[1,0,0],[0,1,0]] : List (List ℚ)),
        v.length = nbrClasses ⟨[0,1],[1,2]⟩) ∧
      getNbrClasses ⟨[0,1],[1,2]⟩ .train = (trainClasses ⟨[0,1],[1,2]⟩).length ∧
      getNbrClasses ⟨[0,1],[1,2]⟩ .train < nbrClasses ⟨[0,1],[1,2]⟩) :=
  ⟨⟨by rfl, by decide, by decide⟩,
    train_latent_longer_than_nbr_classes ⟨[0,1],[1,2]⟩ .train (fun _ => 1) 0
      none [] false (fun _ => 0)
      ⟨[0,1], [0,1], [[1,0,0],[0,1,0]], [[1,0,0],[0,1,0]], false, false⟩
      (by rfl) 2 (by decide) (by decide)⟩

/-- C9: with `target_only=True` (and a sufficiently large working set) the
distractor indices are still drawn — the returned `indices` list still has
`1 + nbr_distractors[mode]` entries with the target first — while the
per-item payload sequences (`exp_labels`, `exp_latents`,
`exp_latents_values`) hold exactly the target item's entries alone. -/
theorem sample_target_only_still_draws
    (d : DualData) (mode : Mode) (nd : Mode → ℕ) (idx : ℕ)
    (fc excepts : List ℕ) (rng : ℕ → ℕ)
    (hmem : globalTarget d mode idx ∈ workingSet (activeClasses d mode) fc excepts)
    (hsize : nd mode ≤
      ((workingSet (activeClasses d mode) fc excepts).erase
        (globalTarget d mode idx)).length) :
    ∃ s, sample d mode nd idx (some fc) excepts true rng = some s ∧
      s.indices.length = 1 + nd mode ∧
      s.indices.head? = some (globalTarget d mode idx) ∧
      s.indices.Nodup ∧
      s.exp_labels = [itemLabel d (globalTarget d mode idx)] ∧
      s.exp_latents =
        [oneHot (nbrClasses d) (itemLabel d (globalTarget d mode idx))] ∧
      s.exp_latents_values =
        [oneHot (nbrClasses d) (itemLabel d (globalTarget d mode idx))] := by
  obtain ⟨r, hr, hlen, hhead, hnd2, _, _, _⟩ :=
    sampleIndices_firstPass (activeClasses d mode) (globalTarget d mode idx)
      fc excepts (nd mode) rng hmem hsize
  have htake : r.indices.take 1 = [globalTarget d mode idx] := by
    cases hri : r.indices with
    | nil =>
        rw [hri] at hhead
        exact absurd hhead (by simp)
    | cons a t =>
        rw [hri] at hhead
        simp only [List.head?_cons, Option.some.injEq] at hhead
        subst hhead
        simp
  have hpay : samplePayload d r.indices true =
      ([itemLabel d (globalTarget d mode idx)],
        [oneHot (nbrClasses d) (itemLabel d (globalTarget d mode idx))]) := by
    simp [samplePayload, htake]
  refine ⟨⟨r.indices, (samplePayload d r.indices true).1,
      (samplePayload d r.indices true).2, (samplePayload d r.indices true).2,
      r.warned, r.removalCaught⟩, ?_, hlen, hhead, hnd2, ?_, ?_, ?_⟩
  · show (sampleIndices (activeClasses d mode) (globalTarget d mode idx)
        (some fc) excepts (nd mode) rng).map _ = _
    rw [hr]
    rfl
  · show (samplePayload d r.indices true).1 = _
    rw [hpay]
  · show (samplePayload d r.indices true).2 = _
    rw [hpay]
  · show (samplePayload d r.indices true).2 = _
    rw [hpay]

/-- Witness for C9: train partition `{0:[0,1], 1:[2]}`, target 0, one
distractor, `target_only=True` — two indices come back but the payload holds
exactly the target's label and one-hot latent. -/
theorem sample_target_only_still_draws_witness :
    (0 ∈ workingSet (activeClasses ⟨[0,0,1],[1]⟩ .train) [0,1] [] ∧
      1 ≤ ((workingSet (activeClasses ⟨[0,0,1],[1]⟩ .train) [0,1] []).erase 0).length) ∧
    (∃ s, sample ⟨[0,0,1],[1]⟩ .train (fun _ => 1) 0 (some [0,1]) [] true
        (fun _ => 0) = some s ∧
      s.indices.length = 1 + 1 ∧
      s.indices.head? = some 0 ∧
      s.indices.Nodup ∧
      s.exp_labels = [itemLabel ⟨[0,0,1],[1]⟩ 0] ∧
      s.exp_latents =
        [oneHot (nbrClasses ⟨[0,0,1],[1]⟩) (itemLabel ⟨[0,0,1],[1]⟩ 0)] ∧
      s.exp_latents_values =
        [oneHot (nbrClasses ⟨[0,0,1],[1]⟩) (itemLabel ⟨[0,0,1],[1]⟩ 0)]) :=
  ⟨⟨by decide, by decide⟩,
    sample_target_only_still_draws ⟨[0,0,1],[1]⟩ .train (fun _ => 1) 0 [0,1]
      [] (fun _ => 0) (by decide) (by decide)⟩

/-- C3 (counterexample): the cap check of line 375 compares only the current
(training) mode's count against that mode's configured maximum, yet line 379
increments every dataset mode. With `nbr_distractors = {train: 2, test: 1}`,
window size 1, both counts starting at 1, two training iterations at
accuracy 100 drive the test mode's count to 2 — strictly above its own
configured maximum of 1, refuting the claimed per-mode cap. -/
theorem curriculum_per_mode_cap_counterexample :
    lookupNat (curriculumRun [("train",2),("test",1)] 1 "train"
        ⟨[("train",1),("test",1)], 0, 0⟩ [100,100]).counts "test" = 2 ∧
    lookupNat [("train",2),("test",1)] "test" = 1 := by
  constructor
  · have h : (curriculumRun [("train",2),("test",1)] 1 "train"
        ⟨[("train",1),("test",1)], 0, 0⟩ [100,100]).counts
        = [("train",2),("test",2)] := by
      simp [curriculumRun, curriculumUpdate, lookupNat]
      norm_num
    rw [h]
    decide
  · decide

/-- C3 (amended): under the curriculum policy every mode's distractor count
is non-decreasing across iterations and the count of the mode in which the
window is tracked (the training mode) never exceeds that mode's configured
maximum `config['nbr_distractors'][mode]`; every dataset mode's count is
incremented by one, with the window reset to empty, exactly when the updated
windowed accuracy exceeds 75, the window holds strictly more than
`curriculum_distractors_window_size` iterations, and the training mode's
count is below the training mode's maximum. A mode whose own configured
maximum is smaller than the training mode's is not protected by its own cap
(see the counterexample). -/
theorem curriculum_monotone_capped
    (cfgMax : List (String × ℕ)) (ws : ℕ) (mode : String)
    (st : CurriculumState) (accs : List ℚ)
    (hcap : lookupNat st.counts mode ≤ lookupNat cfgMax mode) :
    (∀ m, lookupNat st.counts m ≤
        lookupNat (curriculumRun cfgMax ws mode st accs).counts m) ∧
    lookupNat (curriculumRun cfgMax ws mode st accs).counts mode ≤
      lookupNat cfgMax mode ∧
    (∀ (st' : CurriculumState) (acc : ℚ),
      ((st'.windowedAccuracy * st'.windowCount + acc) /
          (((st'.windowCount + 1 : ℕ) : ℚ)) > 75 ∧
        st'.windowCount + 1 > ws ∧
        lookupNat st'.counts mode < lookupNat cfgMax mode) →
      curriculumUpdate cfgMax ws mode st' acc =
        ⟨st'.counts.map (fun p => (p.1, p.2 + 1)), 0, 0⟩) ∧
    (∀ (st' : CurriculumState) (acc : ℚ),
      ¬((st'.windowedAccuracy * st'.windowCount + acc) /
          (((st'.windowCount + 1 : ℕ) : ℚ)) > 75 ∧
        st'.windowCount + 1 > ws ∧
        lookupNat st'.counts mode < lookupNat cfgMax mode) →
      curriculumUpdate cfgMax ws mode st' acc =
        ⟨st'.counts,
          (st'.windowedAccuracy * st'.windowCount + acc) /
            (((st'.windowCount + 1 : ℕ) : ℚ)),
          st'.windowCount + 1⟩) := by
  refine ⟨fun m => curriculumRun_counts_mono cfgMax ws mode accs st m,
    curriculumRun_cap cfgMax ws mode accs st hcap, ?_, ?_⟩
  · intro st' acc hcond
    unfold curriculumUpdate
    dsimp only
    rw [if_pos hcond]
  · intro st' acc hcond
    unfold curriculumUpdate
    dsimp only
    rw [if_neg hcond]

/-- Witness for the amended C3: a single mode capped at 2, starting at 1,
one perfect-accuracy iteration — the count stays within the cap. -/
theorem curriculum_monotone_capped_witness :
    lookupNat [("train",1)] "train" ≤ lookupNat [("train",2)] "train" ∧
    lookupNat (curriculumRun [("train",2)] 0 "train"
      ⟨[("train",1)], 0, 0⟩ [100]).counts "train" ≤
      lookupNat [("train",2)] "train" :=
  ⟨by decide,
    (curriculum_monotone_capped [("train",2)] 0 "train"
      ⟨[("train",1)], 0, 0⟩ [100] (by decide)).2.1⟩

/-- C5 (code bug): the spec requires a fatal configuration error when the
target index belongs to no candidate class; the source instead catches the
`KeyError` of `set_indices.remove(idx)` (lines 103-108), prints it, drops
into an interactive debugger and then continues. At target 5 with the only
class `{0: [0,1]}`, the modelled sampler returns a normal grouped sample
`[5, 0]` headed by the absent target, `removalCaught` recording the caught
exception — no fatal error is raised. -/
theorem sample_missing_target_continues :
    5 ∉ workingSet (activeClasses ⟨[0,0],[]⟩ .train)
        (keysOf (activeClasses ⟨[0,0],[]⟩ .train)) [] ∧
    (sample ⟨[0,0],[]⟩ .train (fun _ => 1) 5 none [] false (fun _ => 0)).map
        (fun s => (s.indices, s.removalCaught)) = some ([5, 0], true) :=
  ⟨by decide, by rfl⟩

/-- C6: within one experience-repetition, every pipeline whose identifier
contains `"referential_game"` is served exactly once per communication round
for exactly `nbr_communication_round` rounds; the `end_of_communication`
signal written at the head of round `r` carries the value `r = n - 1`, so it
is true on the last round and only there (once overall, false on the other
`n - 1` rounds); and after the round loop every other pipeline is served
exactly once. -/
theorem repetition_pipeline_serving
    (pipeIds : List String) (n : ℕ) (p : String)
    (hn : 1 ≤ n) (hp : p ∈ pipeIds) (hnd : pipeIds.Nodup) :
    (∀ r, r < n → (roundEvents pipeIds n r).count (Event.serve p) =
      if isRefGamePipe p then 1 else 0) ∧
    (∀ r, r < n → (roundEvents pipeIds n r).head? =
      some (Event.signal "end_of_communication" (decide (r = n - 1)))) ∧
    (∀ r, r < n → (roundEvents pipeIds n r).count
        (Event.signal "end_of_communication" true) =
      if r = n - 1 then 1 else 0) ∧
    ((repetitionEvents pipeIds n).count (Event.serve p) =
      if isRefGamePipe p then n else 1) ∧
    (repetitionEvents pipeIds n).count
      (Event.signal "end_of_communication" true) = 1 ∧
    (repetitionEvents pipeIds n).count
      (Event.signal "end_of_communication" false) = n - 1 := by
  have hc1 : pipeIds.count p = 1 := List.count_eq_one_of_mem hnd hp
  have hfilter : (pipeIds.filter isRefGamePipe).count p =
      if isRefGamePipe p then 1 else 0 := by
    rw [count_filter_if]
    by_cases h : isRefGamePipe p <;> simp [h, hc1]
  have hfilter2 : (pipeIds.filter (fun q => !isRefGamePipe q)).count p =
      if isRefGamePipe p then 0 else 1 := by
    rw [count_filter_if]
    by_cases h : isRefGamePipe p <;> simp [h, hc1]
  obtain ⟨m, rfl⟩ : ∃ m, n = m + 1 := ⟨n - 1, by omega⟩
  have hsig := count_signal_rounds_ne pipeIds (m + 1) (List.range m)
    (fun r hr => by have := List.mem_range.mp hr; omega)
  refine ⟨?_, ?_, ?_, ?_, ?_, ?_⟩
  · intro r _
    rw [count_serve_roundEvents, hfilter]
  · intro r _
    rfl
  · intro r _
    rw [count_signal_roundEvents]
    by_cases h : r = m + 1 - 1 <;> simp [h]
  · rw [repetitionEvents, List.count_append, count_serve_rounds,
      count_serve_map_serve, hfilter, hfilter2, List.length_range]
    by_cases h : isRefGamePipe p <;> simp [h]
  · rw [repetitionEvents, List.count_append, count_signal_map_serve,
      List.range_succ, List.flatMap_append, List.count_append, hsig.1]
    simp [count_signal_roundEvents]
  · rw [repetitionEvents, List.count_append, count_signal_map_serve,
      List.range_succ, List.flatMap_append, List.count_append, hsig.2]
    simp [count_signal_roundEvents, List.length_range]

/-- Witness for C6: pipelines `a_referential_game` and `metrics`, two
communication rounds, observed for the communication pipeline. -/
theorem repetition_pipeline_serving_witness :
    (1 ≤ 2 ∧ "a_referential_game" ∈ ["a_referential_game", "metrics"] ∧
      (["a_referential_game", "metrics"] : List String).Nodup) ∧
    ((∀ r, r < 2 →
      (roundEvents ["a_referential_game", "metrics"] 2 r).count
          (Event.serve "a_referential_game") =
        if isRefGamePipe "a_referential_game" then 1 else 0) ∧
    (∀ r, r < 2 →
      (roundEvents ["a_referential_game", "metrics"] 2 r).head? =
        some (Event.signal "end_of_communication" (decide (r = 2 - 1)))) ∧
    (∀ r, r < 2 →
      (roundEvents ["a_referential_game", "metrics"] 2 r).count
          (Event.signal "end_of_communication" true) =
        if r = 2 - 1 then 1 else 0) ∧
    ((repetitionEvents ["a_referential_game", "metrics"] 2).count
        (Event.serve "a_referential_game") =
      if isRefGamePipe "a_referential_game" then 2 else 1) ∧
    (repetitionEvents ["a_referential_game", "metrics"] 2).count
      (Event.signal "end_of_communication" true) = 1 ∧
    (repetitionEvents ["a_referential_game", "metrics"] 2).count
      (Event.signal "end_of_communication" false) = 2 - 1) :=
  ⟨⟨by decide, by decide, by decide⟩,
    repetition_pipeline_serving ["a_referential_game", "metrics"] 2
      "a_referential_game" (by decide) (by decide) (by decide)⟩

/-- C7 (counterexample): `save_modules` has its `try/except` commented out
(lines 98-104); a module-save failure therefore propagates out of `save`,
and the pipelines and signals artifacts are never attempted — refuting the
claim that a failure in any one artifact is caught while the remaining
artifacts still proceed. -/
theorem save_modules_failure_aborts :
    (saveOutcome (fun a => decide (a = Artifact.modules))).attempted =
        [Artifact.config, Artifact.modules] ∧
    (saveOutcome (fun a => decide (a = Artifact.modules))).escaped = true ∧
    Artifact.pipelines ∉
      (saveOutcome (fun a => decide (a = Artifact.modules))).attempted ∧
    Artifact.signals ∉
      (saveOutcome (fun a => decide (a = Artifact.modules))).attempted :=
  ⟨by rfl, by rfl, by decide, by decide⟩

/-- C7 (amended): every per-artifact load failure, and every save failure
except one in `save_modules`, is caught and logged for that artifact
individually, letting the remaining artifacts proceed: `load` attempts all
four artifacts with no escaping exception whatever fails, and `save` does
the same whenever the module artifact does not fail; a module-save failure
escapes after config and modules, aborting the pipeline and signal saves. -/
theorem persistence_per_artifact_isolation (fail : Artifact → Bool) :
    (loadOutcome fail).attempted =
      [Artifact.config, Artifact.modules, Artifact.pipelines,
        Artifact.signals] ∧
    (loadOutcome fail).escaped = false ∧
    (fail Artifact.modules = false →
      (saveOutcome fail).attempted =
        [Artifact.config, Artifact.modules, Artifact.pipelines,
          Artifact.signals] ∧
      (saveOutcome fail).escaped = false) ∧
    (fail Artifact.modules = true →
      (saveOutcome fail).attempted = [Artifact.config, Artifact.modules] ∧
      (saveOutcome fail).escaped = true) := by
  refine ⟨?_, ?_, fun h => ?_, fun h => ?_⟩
  · simp [loadOutcome, persistStep]
  · simp [loadOutcome, persistStep]
  · constructor <;> simp [saveOutcome, persistStep, h]
  · constructor <;> simp [saveOutcome, persistStep, h]

/-- Witness for the amended C7: with no failing artifact, `save` attempts
all four artifacts and no exception escapes. -/
theorem persistence_per_artifact_isolation_witness :
    ((fun _ : Artifact => false) Artifact.modules = false) ∧
    ((saveOutcome (fun _ => false)).attempted =
        [Artifact.config, Artifact.modules, Artifact.pipelines,
          Artifact.signals] ∧
      (saveOutcome (fun _ => false)).escaped = false) :=
  ⟨rfl, (persistence_per_artifact_isolation (fun _ => false)).2.2.1 rfl⟩

/-- Witness for C2 at a concrete input: train partition `{0:[0], 1:[1,2]}`,
target 0 restricted to class 0 (too small), two distractors: the fallback
to all classes fires and three indices come back. -/
theorem sample_sparsity_fallback_witness :
    (((workingSet (activeClasses ⟨[0,1,1],[]⟩ .train) [0] []).erase 0).length < 2 ∧
      0 ∈ workingSet (activeClasses ⟨[0,1,1],[]⟩ .train)
        (keysOf (activeClasses ⟨[0,1,1],[]⟩ .train)) [] ∧
      2 ≤ ((workingSet (activeClasses ⟨[0,1,1],[]⟩ .train)
        (keysOf (activeClasses ⟨[0,1,1],[]⟩ .train)) []).erase 0).length) ∧
    (∃ s, sample ⟨[0,1,1],[]⟩ .train (fun _ => 2) 0 (some [0]) [] false
        (fun _ => 0) = some s ∧
      s.warned = true ∧
      s.indices.length = 1 + 2 ∧
      s.indices.head? = some 0 ∧
      s.indices.Nodup) :=
  ⟨⟨by decide, by decide, by decide⟩,
    sample_sparsity_fallback ⟨[0,1,1],[]⟩ .train (fun _ => 2) 0 [0] []
      (fun _ => 0) (by decide) (by decide) (by decide)⟩

end RG
